/-
Verification of the style-resolution and layout core of the hastur
browser engine against its natural-language specification.

The repository slice contains the style test-suite (style_test.cpp), the
styled-node header (styled_node.h, with `StyledNode`, `get_property` and
`operator==`), and the layout header (layout.h, with `LayoutBox` and
`LayoutBox::get_property`).  The bodies of `style::is_match`,
`style::matching_rules`, `style::style_tree`, `layout::box_at_position`
and the string helpers `util::split` / `util::trim` are not part of the
slice; those are modelled from the specification (each such definition
says so in its doc comment) and checked against the in-tree test-suite's
expectations.

C++ strings are embedded as `List Char` (written `Str`); concrete string
inputs appear as `"text".toList`.
-/
import Mathlib

namespace Hastur

/-- Embedding of C++ `std::string` / `std::string_view`. -/
abbrev Str := List Char

/-! ## Data model -/

/-- `css::PropertyId`: the property-identifier enumeration.  Only the
constructors exercised by the specification and the test-suite are
modelled; the set is closed and the claims are uniform in it. -/
inductive PropertyId where
  | Width
  | Height
  | FontSize
  | FontFamily
  | FontStyle
  | Display
  | BackgroundColor
  | Color
  deriving DecidableEq, Repr

/-- The element payload of a `dom::Node`: tag name plus the ordered
attribute (name, value) mapping.  Children live in the `Node` wrapper. -/
structure ElementData where
  name : Str
  attributes : List (Str × Str)
  deriving DecidableEq, Repr

/-- `dom::Node`: a tagged variant, one case holding an element (tag,
attributes, ordered children), one case for text content. -/
inductive Node where
  | element (data : ElementData) (children : List Node)
  | text (content : Str)
  deriving Repr

mutual
/-- Structural equality of document nodes (C++ `dom::Node::operator==`,
the defaulted comparison of the variant). -/
def Node.beq : Node → Node → Bool
  | .element d1 cs1, .element d2 cs2 => d1 == d2 && Node.beqList cs1 cs2
  | .text t1, .text t2 => t1 == t2
  | _, _ => false

def Node.beqList : List Node → List Node → Bool
  | [], [] => true
  | c1 :: r1, c2 :: r2 => Node.beq c1 c2 && Node.beqList r1 r2
  | _, _ => false
end

instance : BEq Node := ⟨Node.beq⟩

/-- `css::Rule`: ordered selector strings plus ordered
(property-id, raw-value) declarations. -/
structure Rule where
  selectors : List Str
  declarations : List (PropertyId × Str)
  deriving DecidableEq, Repr

/-- Look an attribute up in the ordered attribute mapping (first match). -/
def getAttr (e : ElementData) (key : Str) : Option Str :=
  match e.attributes.find? (fun a => a.1 == key) with
  | some a => some a.2
  | none => none

/-! ## String helpers (modelled from the spec) -/

/-- Whitespace characters for attribute splitting and trimming. -/
def isWs (c : Char) : Bool :=
  c == ' ' || c == '\t' || c == '\n' || c == '\r' || c == '\x0b' || c == '\x0c'

/-- Split a string into whitespace-separated words, dropping the
whitespace.  Used for the `class` attribute: the spec's "`class`
attribute, when split on whitespace". -/
def wsWords (l : Str) : List Str :=
  (l.splitOnP isWs).filter (fun w => !w.isEmpty)

/-- Modelled from the spec: `util::split` on a single separator
character — cut the string at every occurrence of `sep`, keeping empty
pieces, so that the result always has (number of separators + 1)
entries. -/
def splitOnChar (sep : Char) (l : Str) : List Str :=
  l.splitOn sep

/-- Modelled from the spec: `util::trim` — drop surrounding whitespace
from both ends of a string. -/
def trimChars (l : Str) : Str :=
  ((l.dropWhile isWs).reverse.dropWhile isWs).reverse

/-! ## Selector matcher (`style::is_match`, modelled from the spec) -/

/-- Does the element's `class` attribute, split on whitespace, contain
`name` exactly?  Elements without a `class` attribute never match. -/
def hasClass (e : ElementData) (name : Str) : Bool :=
  match getAttr e "class".toList with
  | none => false
  | some cls => (wsWords cls).any (fun w => w == name)

/-- Is the element a link for the purpose of `:link` / `:any-link`:
tag `a` or `area`, carrying an `href` attribute. -/
def isLinkElement (e : ElementData) : Bool :=
  (e.name == "a".toList || e.name == "area".toList)
    && (getAttr e "href".toList).isSome

/-- Modelled from the spec: matching of the non-pseudo prefix of a
pseudo-class selector (universal/type/class, plus the id-qualified
variants the test-suite exercises); an empty prefix matches every
element. -/
def pselMatches (e : ElementData) (psel : Str) : Bool :=
  if psel = [] then true
  else if psel = ['*'] then true
  else if psel.head? = some '.' then hasClass e psel.tail
  else if psel.head? = some '#' then
    match getAttr e "id".toList with
    | some v => v == psel.tail
    | none => false
  else e.name == psel

/-- Split a selector at its first `:` into (prefix, pseudo-class name),
when a `:` is present. -/
def splitPseudo (selector : Str) : Option (Str × Str) :=
  match selector.splitOn ':' with
  | [_] => none
  | p :: rest => some (p, List.intercalate [':'] rest)
  | [] => none

/-- The non-pseudo selector grammar: `*` matches anything; `.name`
matches via the `class` attribute; a bare identifier matches the tag
name case-sensitively. -/
def bareMatch (e : ElementData) (selector : Str) : Bool :=
  if selector = ['*'] then true
  else if selector.head? = some '.' then hasClass e selector.tail
  else e.name == selector

/-- Modelled from the spec: `style::is_match(element, selector)`.
An optional trailing `:pseudo` clause is matched by exact name against
the fixed allow-list {`link`, `any-link`}, both recognized against
elements whose tag is `a` or `area` and which carry `href`; any other
pseudo-class name fails to match; the non-pseudo prefix and the pseudo
part are evaluated independently and both must match. -/
def is_match (e : ElementData) (selector : Str) : Bool :=
  match splitPseudo selector with
  | some (psel, pseudo) =>
    if pseudo = "link".toList ∨ pseudo = "any-link".toList then
      isLinkElement e && pselMatches e psel
    else false
  | none => bareMatch e selector

/-! ## Cascade resolver (`style::matching_rules`, modelled from the spec) -/

/-- Modelled from the spec: `style::matching_rules(element, rules)` —
iterate the rule list in stylesheet order; for each rule, if any of its
selectors matches the element, append all of that rule's declarations in
declaration order. -/
def matching_rules (e : ElementData) (stylesheet : List Rule) :
    List (PropertyId × Str) :=
  stylesheet.foldl
    (fun acc rule =>
      if rule.selectors.any (fun s => is_match e s) then acc ++ rule.declarations
      else acc)
    []

/-- The two-rule stylesheet of the specification's `matching_rules`
example: `[{selectors:[span,p], decls:[(Width,"80px")]},
{selectors:[span,hr], decls:[(Height,"auto")]}]`. -/
def c1Stylesheet : List Rule :=
  [⟨["span".toList, "p".toList], [(PropertyId.Width, "80px".toList)]⟩,
   ⟨["span".toList, "hr".toList], [(PropertyId.Height, "auto".toList)]⟩]

/-! ## Styled nodes -/

/-- The parent-free content of a `style::StyledNode`: the referenced
document node, the resolved properties, and the children.  This is
exactly the part of a styled node that `operator==` observes. -/
inductive StyledCore where
  | mk (node : Node) (properties : List (PropertyId × Str))
       (children : List StyledCore)
  deriving Repr

/-- `style::StyledNode`: references the originating document node, holds
the resolved (property-id, raw-value) pairs, the child styled nodes, and
a non-owning back-reference to the parent (null for the root).  The
back-reference is modelled by the value it observably points at — the
parent's parent-free tree, which is what the repository's
`check_parents` helper inspects through `operator==`. -/
inductive StyledNode where
  | mk (node : Node) (properties : List (PropertyId × Str))
       (children : List StyledNode) (parent : Option StyledCore)
  deriving Repr

def StyledNode.node : StyledNode → Node
  | .mk n _ _ _ => n

def StyledNode.properties : StyledNode → List (PropertyId × Str)
  | .mk _ p _ _ => p

def StyledNode.children : StyledNode → List StyledNode
  | .mk _ _ c _ => c

def StyledNode.parent : StyledNode → Option StyledCore
  | .mk _ _ _ p => p

def StyledCore.node : StyledCore → Node
  | .mk n _ _ => n

def StyledCore.properties : StyledCore → List (PropertyId × Str)
  | .mk _ p _ => p

def StyledCore.children : StyledCore → List StyledCore
  | .mk _ _ c => c

mutual
/-- Erase the parent back-references of a styled tree. -/
def StyledNode.core : StyledNode → StyledCore
  | .mk n props cs _ => .mk n props (StyledNode.coreList cs)

def StyledNode.coreList : List StyledNode → List StyledCore
  | [] => []
  | c :: rest => StyledNode.core c :: StyledNode.coreList rest
end

mutual
/-- `style::operator==(StyledNode const&, StyledNode const&)` from
styled_node.h: `a.node == b.node && a.properties == b.properties &&
a.children == b.children` — the parent back-reference is not compared,
and the comparison of the child vectors recursively uses this same
operator. -/
def styledEq : StyledNode → StyledNode → Bool
  | .mk n1 p1 c1 _, .mk n2 p2 c2 _ =>
    Node.beq n1 n2 && p1 == p2 && styledEqList c1 c2

def styledEqList : List StyledNode → List StyledNode → Bool
  | [], [] => true
  | a :: as, b :: bs => styledEq a b && styledEqList as bs
  | _, _ => false
end

/-! ## Styled-tree builder (`style::style_tree`, modelled from the spec) -/

mutual
/-- Modelled from the spec: the recursive core of `style::style_tree` —
for an element, build a styled node whose properties are
`matching_rules(this_element, rules)` and whose children are the
recursively built styled nodes of its element children in document
order; a non-element node yields no styled node. -/
def buildCore : Node → List Rule → Option StyledCore
  | .text _, _ => none
  | .element d cs, rules =>
    some (.mk (.element d cs) (matching_rules d rules) (buildCoreList cs rules))

def buildCoreList : List Node → List Rule → List StyledCore
  | [], _ => []
  | c :: rest, rules =>
    match buildCore c rules with
    | some sc => sc :: buildCoreList rest rules
    | none => buildCoreList rest rules
end

mutual
/-- Set the parent back-references: each child's back-reference points
at the just-built parent (observed by value, i.e. the parent's
parent-free tree), the root's is the given one. -/
def addParents (par : Option StyledCore) : StyledCore → StyledNode
  | .mk n props cs => .mk n props (addParentsList (some (.mk n props cs)) cs) par

def addParentsList (par : Option StyledCore) : List StyledCore → List StyledNode
  | [] => []
  | c :: rest => addParents par c :: addParentsList par rest
end

/-- Modelled from the spec: `style::style_tree(root, rules)` — build the
styled tree of the root element (no result for a non-element root) with
every parent back-reference set after its parent's construction. -/
def style_tree (root : Node) (rules : List Rule) : Option StyledNode :=
  (buildCore root rules).map (addParents none)

/-- Is a document node an element? -/
def Node.isElement : Node → Bool
  | .element _ _ => true
  | .text _ => false

mutual
/-- Number of element nodes in a document tree. -/
def elemCount : Node → Nat
  | .element _ cs => 1 + elemCountList cs
  | .text _ => 0

def elemCountList : List Node → Nat
  | [] => 0
  | c :: rest => elemCount c + elemCountList rest
end

mutual
/-- Number of nodes in a parent-free styled tree. -/
def coreCount : StyledCore → Nat
  | .mk _ _ cs => 1 + coreCountList cs

def coreCountList : List StyledCore → Nat
  | [] => 0
  | c :: rest => coreCount c + coreCountList rest
end

mutual
/-- Every subtree of a parent-free styled tree (the tree itself and all
its descendants). -/
def allCores : StyledCore → List StyledCore
  | .mk n p cs => .mk n p cs :: allCoresList cs

def allCoresList : List StyledCore → List StyledCore
  | [] => []
  | c :: rest => allCores c ++ allCoresList rest
end

mutual
/-- Structural equality of parent-free styled trees. -/
def StyledCore.beq : StyledCore → StyledCore → Bool
  | .mk n1 p1 c1, .mk n2 p2 c2 =>
    Node.beq n1 n2 && p1 == p2 && StyledCore.beqList c1 c2

def StyledCore.beqList : List StyledCore → List StyledCore → Bool
  | [], [] => true
  | a :: as, b :: bs => StyledCore.beq a b && StyledCore.beqList as bs
  | _, _ => false
end

mutual
/-- Does every non-root node of a styled tree carry a parent
back-reference that points at (the parent-free tree of) its structural
parent?  The root's own back-reference is checked by the caller. -/
def parentsOk : StyledNode → Bool
  | .mk n props cs _ =>
    parentsOkList (StyledCore.mk n props (StyledNode.coreList cs)) cs

def parentsOkList (par : StyledCore) : List StyledNode → Bool
  | [] => true
  | c :: rest =>
    (match StyledNode.parent c with
     | some q => StyledCore.beq q par
     | none => false)
      && parentsOk c && parentsOkList par rest
end

/-! ## Typed property access -/

/-- Modelled from the spec: `style::StyledNode::get_raw_property` —
scan the node's resolved properties sequence; when multiple entries
share the property id, the last matching entry is authoritative; an
absent property resolves to the empty raw string. -/
def StyledNode.get_raw_property (sn : StyledNode) (p : PropertyId) : Str :=
  match sn.properties.reverse.find? (fun d => d.1 == p) with
  | some d => d.2
  | none => []

/-- The font-family decoding from styled_node.h (`get_property` with
`T == css::PropertyId::FontFamily`): split the raw value on commas and
trim each entry, keeping order and multiplicity. -/
def fontFamilies (raw : Str) : List Str :=
  (splitOnChar ',' raw).map trimChars

/-- `style::StyledNode::get_property<css::PropertyId::FontFamily>`:
`util::split(get_raw_property(T), ",")` followed by trimming each entry
in place. -/
def StyledNode.getPropertyFontFamily (sn : StyledNode) : List Str :=
  fontFamilies (sn.get_raw_property PropertyId.FontFamily)

/-- A concrete styled node whose raw `font-family` value exercises
splitting and trimming (duplicate entry, surrounding whitespace). -/
def c7Node : StyledNode :=
  .mk (.text []) [(PropertyId.FontFamily, "Arial , Arial,sans-serif".toList)]
    [] none

/-! ## Layout boxes -/

/-- `layout::LayoutType`. -/
inductive LayoutType where
  | Inline
  | Block
  | AnonymousBlock
  deriving DecidableEq, Repr

/-- `geom::Rect`, with integer coordinates. -/
structure Rect where
  x : Int
  y : Int
  width : Int
  height : Int
  deriving DecidableEq, Repr

/-- Per-side edge sizes of the box model. -/
structure EdgeSize where
  left : Int
  right : Int
  top : Int
  bottom : Int
  deriving DecidableEq, Repr

/-- Modelled from the spec: the box-model geometry record — a content
rectangle plus per-side padding, border and margin edge sizes. -/
structure BoxModel where
  content : Rect
  padding : EdgeSize
  border : EdgeSize
  margin : EdgeSize
  deriving DecidableEq, Repr

/-- Grow a rectangle outwards by per-side edge sizes. -/
def Rect.expand (r : Rect) (e : EdgeSize) : Rect :=
  ⟨r.x - e.left, r.y - e.top, r.width + e.left + e.right,
   r.height + e.top + e.bottom⟩

/-- A query point. -/
structure Position where
  x : Int
  y : Int
  deriving DecidableEq, Repr

/-- Point-in-rectangle test, inclusive at all edges. -/
def Rect.contains (r : Rect) (p : Position) : Bool :=
  r.x ≤ p.x && p.x ≤ r.x + r.width && r.y ≤ p.y && p.y ≤ r.y + r.height

/-- Modelled from the spec: the border box — the content rectangle grown
by the padding and border edges (the margin edge is excluded). -/
def BoxModel.borderBox (d : BoxModel) : Rect :=
  (d.content.expand d.padding).expand d.border

/-- `layout::LayoutBox`: an optional reference to the styled node it was
generated from (none for synthesized anonymous boxes), a box kind tag,
box-model geometry, and child boxes. -/
inductive LayoutBox where
  | mk (node : Option StyledNode) (type : LayoutType) (dimensions : BoxModel)
       (children : List LayoutBox)

def LayoutBox.node : LayoutBox → Option StyledNode
  | .mk n _ _ _ => n

def LayoutBox.type : LayoutBox → LayoutType
  | .mk _ t _ _ => t

def LayoutBox.dimensions : LayoutBox → BoxModel
  | .mk _ _ d _ => d

def LayoutBox.children : LayoutBox → List LayoutBox
  | .mk _ _ _ c => c

/-- `layout::LayoutBox::get_property` from layout.h: return no value
when the styled-node reference is null, otherwise the styled node's
property value. -/
def LayoutBox.get_property (b : LayoutBox) (p : PropertyId) : Option Str :=
  match b.node with
  | none => none
  | some n => some (n.get_raw_property p)

/-! ## Hit tester (`layout::box_at_position`, modelled from the spec) -/

mutual
/-- Modelled from the spec: `layout::box_at_position(box, p)` —
depth-first, children before self: recurse into each child in document
order and return the first hit; otherwise the box itself when its border
box (margin edge excluded) contains the point; otherwise no match. -/
def box_at_position : LayoutBox → Position → Option LayoutBox
  | .mk n t d cs, p =>
    match childHit cs p with
    | some hit => some hit
    | none => if d.borderBox.contains p then some (.mk n t d cs) else none

def childHit : List LayoutBox → Position → Option LayoutBox
  | [], _ => none
  | c :: rest, p =>
    match box_at_position c p with
    | some hit => some hit
    | none => childHit rest p
end

mutual
/-- Every box of a layout tree (the box itself and all descendants). -/
def allBoxes : LayoutBox → List LayoutBox
  | .mk n t d cs => .mk n t d cs :: allBoxesList cs

def allBoxesList : List LayoutBox → List LayoutBox
  | [] => []
  | c :: rest => allBoxes c ++ allBoxesList rest
end

/-! ## General lemmas -/

mutual
theorem Node.beq_iff : ∀ a b : Node, Node.beq a b = true ↔ a = b
  | .element d1 cs1, .element d2 cs2 => by
    simp only [Node.beq, Bool.and_eq_true, beq_iff_eq, Node.element.injEq]
    exact and_congr Iff.rfl (Node.beqList_iff cs1 cs2)
  | .element _ _, .text _ => by simp [Node.beq]
  | .text _, .element _ _ => by simp [Node.beq]
  | .text t1, .text t2 => by simp [Node.beq]

theorem Node.beqList_iff : ∀ a b : List Node, Node.beqList a b = true ↔ a = b
  | [], [] => by simp [Node.beqList]
  | [], _ :: _ => by simp [Node.beqList]
  | _ :: _, [] => by simp [Node.beqList]
  | c1 :: r1, c2 :: r2 => by
    simp only [Node.beqList, Bool.and_eq_true, List.cons.injEq]
    exact and_congr (Node.beq_iff c1 c2) (Node.beqList_iff r1 r2)
end

theorem splitOn_of_not_mem (sep : Char) (s : Str) (h : sep ∉ s) :
    s.splitOn sep = [s] := by
  unfold List.splitOn
  refine List.splitOnP_eq_single _ _ ?_
  intro x hx hb
  rw [beq_iff_eq] at hb
  exact h (hb ▸ hx)

theorem splitPseudo_eq_none (s : Str) (h : ':' ∉ s) : splitPseudo s = none := by
  simp only [splitPseudo, splitOn_of_not_mem ':' s h]

theorem splitPseudo_append (P S : Str) (h : ':' ∉ P) :
    splitPseudo (P ++ ':' :: S) = some (P, S) := by
  have h1 : (P ++ ':' :: S).splitOn ':' = P :: S.splitOn ':' := by
    unfold List.splitOn
    refine List.splitOnP_first _ _ ?_ ':' (by simp) S
    intro x hx hb
    rw [beq_iff_eq] at hb
    exact h (hb ▸ hx)
  have h2 : [':'].intercalate (S.splitOn ':') = S := List.intercalate_splitOn S ':'
  have h3 : S.splitOn ':' ≠ [] := by
    unfold List.splitOn
    exact List.splitOnP_ne_nil _ S
  simp only [splitPseudo, h1]
  cases h4 : S.splitOn ':' with
  | nil => exact absurd h4 h3
  | cons a rest =>
    rw [h4] at h2
    show some (P, List.intercalate [':'] (a :: rest)) = some (P, S)
    rw [h2]

theorem is_match_no_colon (e : ElementData) (s : Str) (h : ':' ∉ s) :
    is_match e s = bareMatch e s := by
  simp only [is_match, splitPseudo_eq_none s h]

theorem is_match_pseudo (e : ElementData) (P S : Str) (hP : ':' ∉ P) :
    is_match e (P ++ ':' :: S) =
      if S = "link".toList ∨ S = "any-link".toList then
        isLinkElement e && pselMatches e P
      else false := by
  simp only [is_match, splitPseudo_append P S hP]

/-! ## C6: universal selector and bare tag names -/

/-- **C6**: for every element, `is_match(E, "*")` is true; and for a bare
identifier selector `T` (no pseudo-class part, not `*`, not a class
selector), `is_match(E, T)` is true exactly when `E`'s tag name equals
`T` case-sensitively. -/
theorem universal_and_tag_selector (e : ElementData) (T : Str)
    (hcolon : ':' ∉ T) (hdot : T.head? ≠ some '.') (hstar : T ≠ ['*']) :
    is_match e "*".toList = true ∧ (is_match e T = true ↔ e.name = T) := by
  constructor
  · rfl
  · rw [is_match_no_colon e T hcolon]
    simp only [bareMatch, if_neg hstar, if_neg hdot]
    exact beq_iff_eq

/-- Witness for C6: a `div` element matches `*` and `div`, and does not
match `span`. -/
theorem universal_and_tag_selector_witness :
    is_match ⟨"div".toList, []⟩ "*".toList = true
    ∧ is_match ⟨"div".toList, []⟩ "div".toList = true
    ∧ is_match ⟨"div".toList, []⟩ "span".toList = false := by
  have h1 := universal_and_tag_selector ⟨"div".toList, []⟩ "div".toList
    (by decide) (by decide) (by decide)
  have h2 := universal_and_tag_selector ⟨"div".toList, []⟩ "span".toList
    (by decide) (by decide) (by decide)
  refine ⟨h1.1, h1.2.mpr (by decide), ?_⟩
  cases h3 : is_match ⟨"div".toList, []⟩ "span".toList
  · rfl
  · exact absurd (h2.2.mp h3) (by decide)

/-! ## C4: unknown pseudo-classes never match -/

/-- **C4**: a selector whose trailing pseudo-class name is not in the
allow-list {`link`, `any-link`} never matches — `is_match` returns
`false` rather than raising an error — for every element and every
non-pseudo prefix. -/
theorem unknown_pseudo_class_never_matches (e : ElementData) (P S : Str)
    (hP : ':' ∉ P) (h1 : S ≠ "link".toList) (h2 : S ≠ "any-link".toList) :
    is_match e (P ++ ':' :: S) = false := by
  rw [is_match_pseudo e P S hP, if_neg]
  rintro (h | h)
  · exact h1 h
  · exact h2 h

/-- Witness for C4: `is_match(div, "div:hi")` and `is_match(div, ":hi")`
are false even though the non-pseudo prefix `div` matches on its own. -/
theorem unknown_pseudo_class_never_matches_witness :
    is_match ⟨"div".toList, []⟩ "div:hi".toList = false
    ∧ is_match ⟨"div".toList, []⟩ ":hi".toList = false
    ∧ is_match ⟨"div".toList, []⟩ "div".toList = true := by
  refine ⟨?_, ?_, by decide⟩
  · exact unknown_pseudo_class_never_matches ⟨"div".toList, []⟩
      "div".toList "hi".toList (by decide) (by decide) (by decide)
  · exact unknown_pseudo_class_never_matches ⟨"div".toList, []⟩
      [] "hi".toList (by decide) (by decide) (by decide)

/-! ## C5: `:link` and `:any-link` behave identically -/

/-- **C5**: for every element and every non-pseudo selector prefix `P`,
`is_match(E, P + ":link")` equals `is_match(E, P + ":any-link")`, and
both are true exactly when the prefix matches, the tag is `a` or `area`,
and the element carries an `href` attribute. -/
theorem link_and_any_link_identical (e : ElementData) (P : Str)
    (hP : ':' ∉ P) :
    is_match e (P ++ ':' :: "link".toList)
      = is_match e (P ++ ':' :: "any-link".toList)
    ∧ (is_match e (P ++ ':' :: "link".toList) = true ↔
        pselMatches e P = true
        ∧ (e.name = "a".toList ∨ e.name = "area".toList)
        ∧ getAttr e "href".toList ≠ none) := by
  rw [is_match_pseudo e P "link".toList hP,
    is_match_pseudo e P "any-link".toList hP,
    if_pos (Or.inl rfl), if_pos (Or.inr rfl)]
  refine ⟨rfl, ?_⟩
  simp only [isLinkElement, Bool.and_eq_true, Bool.or_eq_true, beq_iff_eq,
    Option.isSome_iff_ne_none]
  tauto

/-- Witness for C5: an `a` element with `href` matches `:link` and
`:any-link`; without `href`, or with tag `b`, it matches neither. -/
theorem link_and_any_link_identical_witness :
    is_match ⟨"a".toList, [("href".toList, [])]⟩ ":link".toList = true
    ∧ is_match ⟨"a".toList, [("href".toList, [])]⟩ ":any-link".toList = true
    ∧ is_match ⟨"a".toList, []⟩ ":link".toList = false
    ∧ is_match ⟨"b".toList, [("href".toList, [])]⟩ ":link".toList = false := by
  have h := link_and_any_link_identical ⟨"a".toList, [("href".toList, [])]⟩
    [] (by decide)
  have hlink : is_match ⟨"a".toList, [("href".toList, [])]⟩ ":link".toList
      = true :=
    h.2.mpr ⟨by decide, Or.inl rfl, by decide⟩
  exact ⟨hlink, h.1 ▸ hlink, by decide, by decide⟩

/-! ## C3: class selectors, and the absence of id matching -/

/-- **C3**: `is_match(E, ".name")` is true exactly when `E` has a
`class` attribute that, split on whitespace, contains `name` exactly; an
element without a `class` attribute never matches `".name"`; and a bare
id selector `"#name"` does not match (no id matching outside the
pseudo-class path): it falls through to the tag-name comparison and so
is false for every element whose tag is not the literal `"#name"` —
in particular for an element whose `id` attribute equals `name`. -/
theorem class_selector_matching (e : ElementData) (name : Str)
    (hname : ':' ∉ name) :
    (is_match e ('.' :: name) = true ↔
      ∃ cls, getAttr e "class".toList = some cls ∧ name ∈ wsWords cls)
    ∧ (getAttr e "class".toList = none → is_match e ('.' :: name) = false)
    ∧ (e.name ≠ '#' :: name → is_match e ('#' :: name) = false) := by
  have hdotfree : ':' ∉ '.' :: name := by
    intro h
    rcases List.mem_cons.mp h with h' | h'
    · exact absurd h' (by decide)
    · exact hname h'
  have hhashfree : ':' ∉ '#' :: name := by
    intro h
    rcases List.mem_cons.mp h with h' | h'
    · exact absurd h' (by decide)
    · exact hname h'
  have hdot : is_match e ('.' :: name) = hasClass e name := by
    rw [is_match_no_colon e _ hdotfree]
    simp [bareMatch]
  refine ⟨?_, ?_, ?_⟩
  · rw [hdot]
    simp only [hasClass]
    cases hcls : getAttr e "class".toList with
    | none => simp
    | some cls =>
      simp only [List.any_eq_true, beq_iff_eq, Option.some.injEq]
      constructor
      · rintro ⟨w, hw, rfl⟩
        exact ⟨cls, rfl, hw⟩
      · rintro ⟨cls2, hc2, hmem⟩
        exact ⟨name, hc2 ▸ hmem, rfl⟩
  · intro hnone
    rw [hdot]
    simp only [hasClass, hnone]
  · intro hne
    have hbare : bareMatch e ('#' :: name) = (e.name == '#' :: name) := by
      simp [bareMatch]
    rw [is_match_no_colon e _ hhashfree, hbare]
    exact beq_eq_false_iff_ne.mpr hne

/-- Witness for C3: a `div` with `class="first second"` matches
`.first`; a `div` whose `id` is `myclass` matches neither `.myclass` nor
`#myclass`; a `div` with `class="myclass"` does match `.myclass`. -/
theorem class_selector_matching_witness :
    is_match ⟨"div".toList, [("class".toList, "first second".toList)]⟩
      ".first".toList = true
    ∧ is_match ⟨"div".toList, [("id".toList, "myclass".toList)]⟩
      ".myclass".toList = false
    ∧ is_match ⟨"div".toList, [("id".toList, "myclass".toList)]⟩
      "#myclass".toList = false
    ∧ is_match ⟨"div".toList, [("class".toList, "myclass".toList)]⟩
      ".myclass".toList = true := by
  have h1 := class_selector_matching
    ⟨"div".toList, [("class".toList, "first second".toList)]⟩
    "first".toList (by decide)
  have h2 := class_selector_matching
    ⟨"div".toList, [("id".toList, "myclass".toList)]⟩
    "myclass".toList (by decide)
  have h3 := class_selector_matching
    ⟨"div".toList, [("class".toList, "myclass".toList)]⟩
    "myclass".toList (by decide)
  refine ⟨?_, h2.2.1 (by decide), h2.2.2 (by decide), ?_⟩
  · exact h1.1.mpr ⟨"first second".toList, by decide, by decide⟩
  · exact h3.1.mpr ⟨"myclass".toList, by decide, by decide⟩

/-! ## C1: the cascade resolver -/

theorem matching_rules_foldl (e : ElementData) (rules : List Rule)
    (init : List (PropertyId × Str)) :
    rules.foldl
      (fun acc rule =>
        if rule.selectors.any (fun s => is_match e s) then acc ++ rule.declarations
        else acc)
      init
    = init
      ++ (rules.filter (fun r => r.selectors.any (fun s => is_match e s))).flatMap
          (fun r => r.declarations) := by
  induction rules generalizing init with
  | nil => simp
  | cons r rest ih =>
    simp only [List.foldl_cons, List.filter_cons]
    by_cases h : r.selectors.any (fun s => is_match e s) = true
    · rw [if_pos h, ih, h]
      simp
    · rw [if_neg h, ih]
      simp [h]

/-- **C1**: `matching_rules` appends, for each rule in stylesheet order
in which at least one selector matches the element, all of that rule's
declarations in declaration order; it returns the empty sequence on an
empty rule list, and on the specification's two-rule example it returns
`[(Width,"80px"),(Height,"auto")]` for `span`, `[(Width,"80px")]` for
`p`, `[(Height,"auto")]` for `hr`, and `[]` for `div`. -/
theorem matching_rules_spec :
    (∀ (e : ElementData) (rules : List Rule),
      matching_rules e rules =
        (rules.filter (fun r => r.selectors.any (fun s => is_match e s))).flatMap
          (fun r => r.declarations))
    ∧ (∀ e : ElementData, matching_rules e [] = [])
    ∧ matching_rules ⟨"span".toList, []⟩ c1Stylesheet
        = [(PropertyId.Width, "80px".toList), (PropertyId.Height, "auto".toList)]
    ∧ matching_rules ⟨"p".toList, []⟩ c1Stylesheet
        = [(PropertyId.Width, "80px".toList)]
    ∧ matching_rules ⟨"hr".toList, []⟩ c1Stylesheet
        = [(PropertyId.Height, "auto".toList)]
    ∧ matching_rules ⟨"div".toList, []⟩ c1Stylesheet = [] := by
  refine ⟨?_, fun e => rfl, by decide, by decide, by decide, by decide⟩
  intro e rules
  unfold matching_rules
  rw [matching_rules_foldl e rules []]
  rfl

/-! ## C8: styled-node equality ignores the parent back-reference -/

mutual
theorem styledEq_iff_core : ∀ a b : StyledNode,
    styledEq a b = true ↔ a.core = b.core
  | .mk n1 p1 c1 par1, .mk n2 p2 c2 par2 => by
    simp only [styledEq, StyledNode.core, Bool.and_eq_true, beq_iff_eq,
      StyledCore.mk.injEq, and_assoc]
    exact and_congr (Node.beq_iff n1 n2)
      (and_congr Iff.rfl (styledEqList_iff_core c1 c2))

theorem styledEqList_iff_core : ∀ as bs : List StyledNode,
    styledEqList as bs = true ↔ StyledNode.coreList as = StyledNode.coreList bs
  | [], [] => by simp [styledEqList, StyledNode.coreList]
  | [], _ :: _ => by simp [styledEqList, StyledNode.coreList]
  | _ :: _, [] => by simp [styledEqList, StyledNode.coreList]
  | a :: as, b :: bs => by
    simp only [styledEqList, StyledNode.coreList, Bool.and_eq_true,
      List.cons.injEq]
    exact and_congr (styledEq_iff_core a b) (styledEqList_iff_core as bs)
end

/-- **C8**: `operator==` on styled-node trees holds exactly when the
referenced document nodes are equal, the property lists are equal, and
the children are recursively equal — i.e. exactly when the parent-erased
trees coincide — and the parent back-reference is ignored, so two
otherwise-equal trees compare equal whatever their parents are. -/
theorem styled_node_equality (a b : StyledNode) :
    (styledEq a b = true ↔
      Node.beq a.node b.node = true ∧ a.properties = b.properties
      ∧ styledEqList a.children b.children = true)
    ∧ (styledEq a b = true ↔ a.core = b.core)
    ∧ ∀ par1 par2 : Option StyledCore,
        styledEq (StyledNode.mk a.node a.properties a.children par1)
          (StyledNode.mk a.node a.properties a.children par2) = true := by
  refine ⟨?_, styledEq_iff_core a b, ?_⟩
  · cases a with
    | mk n1 p1 c1 par1 =>
      cases b with
      | mk n2 p2 c2 par2 =>
        simp [styledEq, StyledNode.node, StyledNode.properties,
          StyledNode.children, Bool.and_eq_true, and_assoc]
  · intro par1 par2
    exact (styledEq_iff_core _ _).mpr rfl

/-! ## C9: property access on anonymous layout boxes -/

/-- **C9**: `LayoutBox::get_property` returns no value for a box whose
styled-node reference is null (an anonymous box), for every property id;
when the reference is non-null it returns that styled node's property
value. -/
theorem layout_box_get_property (p : PropertyId) (t : LayoutType)
    (d : BoxModel) (cs : List LayoutBox) (sn : StyledNode) :
    (LayoutBox.mk none t d cs).get_property p = none
    ∧ (LayoutBox.mk (some sn) t d cs).get_property p
        = some (sn.get_raw_property p) :=
  ⟨rfl, rfl⟩

/-! ## C7: font-family splitting and trimming -/

theorem splitOnP_pieces (p : Char → Bool) (l : Str) :
    ∀ x ∈ l.splitOnP p, ∀ c ∈ x, p c = false := by
  induction l with
  | nil =>
    intro x hx c hc
    simp only [List.splitOnP_nil, List.mem_singleton] at hx
    subst hx
    cases hc
  | cons a l ih =>
    intro x hx c hc
    rw [List.splitOnP_cons] at hx
    by_cases hpa : p a
    · rw [if_pos hpa] at hx
      rcases List.mem_cons.mp hx with rfl | hx
      · cases hc
      · exact ih x hx c hc
    · rw [if_neg hpa] at hx
      cases hsp : l.splitOnP p with
      | nil => exact absurd hsp (List.splitOnP_ne_nil p l)
      | cons h t =>
        rw [hsp, List.modifyHead_cons] at hx
        rcases List.mem_cons.mp hx with rfl | hx
        · rcases List.mem_cons.mp hc with rfl | hc
          · exact Bool.eq_false_iff.mpr hpa
          · exact ih h (hsp ▸ List.mem_cons_self h t) c hc
        · exact ih x (hsp ▸ List.mem_cons.mpr (Or.inr hx)) c hc

theorem head_dropWhile_not (p : Char → Bool) (l : Str) (c : Char)
    (h : (l.dropWhile p).head? = some c) : p c = false := by
  induction l with
  | nil => cases h
  | cons a l ih =>
    rw [List.dropWhile_cons] at h
    by_cases hpa : p a
    · rw [if_pos hpa] at h
      exact ih h
    · rw [if_neg hpa, List.head?_cons, Option.some.injEq] at h
      subst h
      exact Bool.eq_false_iff.mpr hpa

theorem getLast?_dropWhile (p : Char → Bool) (l : Str)
    (h : l.dropWhile p ≠ []) : (l.dropWhile p).getLast? = l.getLast? := by
  induction l with
  | nil => simp at h
  | cons a l ih =>
    rw [List.dropWhile_cons] at h ⊢
    by_cases hpa : p a
    · rw [if_pos hpa] at h ⊢
      have hl : l ≠ [] := by
        rintro rfl
        simp at h
      rw [ih h]
      cases l with
      | nil => exact absurd rfl hl
      | cons b t => exact (List.getLast?_cons_cons).symm
    · rw [if_neg hpa]

theorem trimChars_decomposition (l : Str) :
    ∃ pre post, l = pre ++ trimChars l ++ post
      ∧ (∀ c ∈ pre, isWs c = true) ∧ (∀ c ∈ post, isWs c = true) := by
  refine ⟨l.takeWhile isWs,
    ((l.dropWhile isWs).reverse.takeWhile isWs).reverse, ?_, ?_, ?_⟩
  · conv_lhs => rw [← List.takeWhile_append_dropWhile isWs l]
    rw [List.append_assoc]
    congr 1
    calc l.dropWhile isWs
        = (l.dropWhile isWs).reverse.reverse := (List.reverse_reverse _).symm
      _ = ((l.dropWhile isWs).reverse.takeWhile isWs
            ++ (l.dropWhile isWs).reverse.dropWhile isWs).reverse := by
            rw [List.takeWhile_append_dropWhile]
      _ = trimChars l
            ++ ((l.dropWhile isWs).reverse.takeWhile isWs).reverse := by
            rw [List.reverse_append]
            rfl
  · intro c hc
    exact List.mem_takeWhile_imp hc
  · intro c hc
    rw [List.mem_reverse] at hc
    exact List.mem_takeWhile_imp hc

theorem trimChars_edges (l : Str) (c : Char) :
    ((trimChars l).head? = some c → isWs c = false)
    ∧ ((trimChars l).getLast? = some c → isWs c = false) := by
  constructor
  · intro h
    rw [trimChars, List.head?_reverse] at h
    have hne : (l.dropWhile isWs).reverse.dropWhile isWs ≠ [] := by
      intro hnil
      rw [hnil] at h
      cases h
    rw [getLast?_dropWhile isWs _ hne, List.getLast?_reverse] at h
    exact head_dropWhile_not isWs _ c h
  · intro h
    rw [trimChars, List.getLast?_reverse] at h
    exact head_dropWhile_not isWs _ c h

/-- **C7**: `get_property<FontFamily>` splits the raw font-family value
on commas (the comma-separated parts reassemble to the raw value and
contain no comma) and trims surrounding whitespace from each entry (each
part decomposes as whitespace ++ trimmed ++ whitespace, and a trimmed
entry neither starts nor ends with whitespace), returning the parts in
order without deduplication. -/
theorem font_family_property (sn : StyledNode) :
    sn.getPropertyFontFamily
      = (splitOnChar ',' (sn.get_raw_property PropertyId.FontFamily)).map
          trimChars
    ∧ [','].intercalate
        (splitOnChar ',' (sn.get_raw_property PropertyId.FontFamily))
        = sn.get_raw_property PropertyId.FontFamily
    ∧ (∀ part ∈ splitOnChar ',' (sn.get_raw_property PropertyId.FontFamily),
        ',' ∉ part)
    ∧ (∀ l : Str, ∃ pre post, l = pre ++ trimChars l ++ post
        ∧ (∀ c ∈ pre, isWs c = true) ∧ (∀ c ∈ post, isWs c = true))
    ∧ (∀ (l : Str) (c : Char),
        ((trimChars l).head? = some c → isWs c = false)
        ∧ ((trimChars l).getLast? = some c → isWs c = false)) := by
  refine ⟨rfl, List.intercalate_splitOn _ ',', ?_, trimChars_decomposition,
    trimChars_edges⟩
  intro part hpart hmem
  have := splitOnP_pieces (fun c => c == ',')
    (sn.get_raw_property PropertyId.FontFamily) part hpart ',' hmem
  simp at this

/-- Witness for C7: the raw value `"Arial , Arial,sans-serif"` splits
into `["Arial", "Arial", "sans-serif"]` (ordered, not deduplicated), and
a concrete trimmed entry has a non-whitespace first character. -/
theorem font_family_property_witness :
    c7Node.getPropertyFontFamily
      = ["Arial".toList, "Arial".toList, "sans-serif".toList]
    ∧ isWs 'A' = false := by
  have h := (font_family_property c7Node).2.2.2.2 " Arial ".toList 'A'
  exact ⟨by decide, h.1 (by decide)⟩

/-! ## C2: the styled-tree builder -/

mutual
theorem styledCoreBeq_iff : ∀ a b : StyledCore,
    StyledCore.beq a b = true ↔ a = b
  | .mk n1 p1 c1, .mk n2 p2 c2 => by
    simp only [StyledCore.beq, Bool.and_eq_true, beq_iff_eq,
      StyledCore.mk.injEq, and_assoc]
    exact and_congr (Node.beq_iff n1 n2)
      (and_congr Iff.rfl (styledCoreBeqList_iff c1 c2))

theorem styledCoreBeqList_iff : ∀ a b : List StyledCore,
    StyledCore.beqList a b = true ↔ a = b
  | [], [] => by simp [StyledCore.beqList]
  | [], _ :: _ => by simp [StyledCore.beqList]
  | _ :: _, [] => by simp [StyledCore.beqList]
  | a :: as, b :: bs => by
    simp only [StyledCore.beqList, Bool.and_eq_true, List.cons.injEq]
    exact and_congr (styledCoreBeq_iff a b) (styledCoreBeqList_iff as bs)
end

mutual
theorem addParents_core : ∀ (par : Option StyledCore) (sc : StyledCore),
    (addParents par sc).core = sc
  | par, .mk n p cs => by
    show StyledCore.mk n p
      (StyledNode.coreList (addParentsList (some (.mk n p cs)) cs)) = .mk n p cs
    rw [addParentsList_core]

theorem addParentsList_core : ∀ (par : Option StyledCore) (cs : List StyledCore),
    StyledNode.coreList (addParentsList par cs) = cs
  | _, [] => rfl
  | par, c :: rest => by
    show StyledNode.core (addParents par c) :: StyledNode.coreList (addParentsList par rest)
      = c :: rest
    rw [addParents_core, addParentsList_core]
end

theorem buildCoreList_nodes : ∀ (cs : List Node) (rules : List Rule),
    (buildCoreList cs rules).map StyledCore.node = cs.filter Node.isElement
  | [], _ => rfl
  | c :: rest, rules => by
    cases c with
    | element d cs2 =>
      show StyledCore.node (.mk (Node.element d cs2) (matching_rules d rules)
          (buildCoreList cs2 rules)) :: (buildCoreList rest rules).map StyledCore.node
        = List.filter Node.isElement (Node.element d cs2 :: rest)
      rw [List.filter_cons]
      simp only [Node.isElement, if_true]
      rw [buildCoreList_nodes rest rules]
      rfl
    | text t =>
      show (buildCoreList rest rules).map StyledCore.node
        = List.filter Node.isElement (Node.text t :: rest)
      rw [List.filter_cons]
      simp only [Node.isElement, if_false, Bool.false_eq_true]
      rw [buildCoreList_nodes rest rules]

mutual
theorem coreCount_buildCore : ∀ (n : Node) (rules : List Rule) (sc : StyledCore),
    buildCore n rules = some sc → coreCount sc = elemCount n
  | .element d cs, rules, sc => by
    intro h
    simp only [buildCore, Option.some.injEq] at h
    subst h
    show 1 + coreCountList (buildCoreList cs rules) = 1 + elemCountList cs
    rw [coreCountList_buildCoreList cs rules]
  | .text _, _, _ => by
    intro h
    cases h

theorem coreCountList_buildCoreList : ∀ (cs : List Node) (rules : List Rule),
    coreCountList (buildCoreList cs rules) = elemCountList cs
  | [], _ => rfl
  | c :: rest, rules => by
    cases c with
    | element d cs2 =>
      show coreCount (.mk (Node.element d cs2) (matching_rules d rules)
          (buildCoreList cs2 rules)) + coreCountList (buildCoreList rest rules)
        = elemCount (Node.element d cs2) + elemCountList rest
      rw [coreCountList_buildCoreList rest rules]
      show 1 + coreCountList (buildCoreList cs2 rules) + elemCountList rest
        = 1 + elemCountList cs2 + elemCountList rest
      rw [coreCountList_buildCoreList cs2 rules]
    | text t =>
      show coreCountList (buildCoreList rest rules)
        = elemCount (Node.text t) + elemCountList rest
      rw [coreCountList_buildCoreList rest rules]
      show elemCountList rest = 0 + elemCountList rest
      rw [Nat.zero_add]
end

mutual
theorem buildCore_allCores_props : ∀ (n : Node) (rules : List Rule)
    (sc : StyledCore), buildCore n rules = some sc →
    ∀ x ∈ allCores sc, ∃ d2 cs2, x.node = Node.element d2 cs2
      ∧ x.properties = matching_rules d2 rules
      ∧ x.children.map StyledCore.node = cs2.filter Node.isElement
  | .element d cs, rules, sc => by
    intro h x hx
    simp only [buildCore, Option.some.injEq] at h
    subst h
    simp only [allCores] at hx
    rcases List.mem_cons.mp hx with rfl | hx
    · exact ⟨d, cs, rfl, rfl, buildCoreList_nodes cs rules⟩
    · exact buildCoreList_allCores_props cs rules x hx
  | .text _, _, _ => by
    intro h
    cases h

theorem buildCoreList_allCores_props : ∀ (cs : List Node) (rules : List Rule),
    ∀ x ∈ allCoresList (buildCoreList cs rules),
    ∃ d2 cs2, x.node = Node.element d2 cs2
      ∧ x.properties = matching_rules d2 rules
      ∧ x.children.map StyledCore.node = cs2.filter Node.isElement
  | [], _ => by
    intro x hx
    cases hx
  | c :: rest, rules => by
    intro x hx
    cases c with
    | element d cs2 =>
      simp only [buildCoreList, buildCore, allCoresList] at hx
      rcases List.mem_append.mp hx with hx | hx
      · exact buildCore_allCores_props (.element d cs2) rules _ rfl x hx
      · exact buildCoreList_allCores_props rest rules x hx
    | text t =>
      simp only [buildCoreList, buildCore] at hx
      exact buildCoreList_allCores_props rest rules x hx
end

mutual
theorem parentsOk_addParents : ∀ (par : Option StyledCore) (sc : StyledCore),
    parentsOk (addParents par sc) = true
  | par, .mk n p cs => by
    show parentsOkList
      (StyledCore.mk n p (StyledNode.coreList (addParentsList (some (.mk n p cs)) cs)))
      (addParentsList (some (.mk n p cs)) cs) = true
    rw [addParentsList_core]
    exact parentsOkList_addParentsList (.mk n p cs) cs

theorem parentsOkList_addParentsList : ∀ (par : StyledCore) (cs : List StyledCore),
    parentsOkList par (addParentsList (some par) cs) = true
  | _, [] => rfl
  | par, c :: rest => by
    simp only [addParentsList, parentsOkList, Bool.and_eq_true]
    refine ⟨⟨?_, parentsOk_addParents (some par) c⟩,
      parentsOkList_addParentsList par rest⟩
    cases c with
    | mk n2 p2 cs2 => exact (styledCoreBeq_iff par par).mpr rfl
end

/-- **C2**: `style_tree` yields, for every element root and rule list, a
styled tree that mirrors the element-only subset of the document (the
root references the document root, the styled-node count equals the
element count, and at every node the children reference exactly the
element children in document order — non-element children produce no
node); every node's property list is `matching_rules` of its element;
every non-root node's parent back-reference points at its structural
parent and the root's is null; with no rules every node's property list
is empty; and a non-element root yields no tree. -/
theorem style_tree_spec (rules : List Rule) (d : ElementData) (cs : List Node) :
    ∃ sn : StyledNode,
      style_tree (Node.element d cs) rules = some sn
      ∧ sn.node = Node.element d cs
      ∧ sn.parent = none
      ∧ coreCount sn.core = elemCount (Node.element d cs)
      ∧ (∀ x ∈ allCores sn.core, ∃ d2 cs2,
          x.node = Node.element d2 cs2
          ∧ x.properties = matching_rules d2 rules
          ∧ x.children.map StyledCore.node = cs2.filter Node.isElement)
      ∧ parentsOk sn = true
      ∧ (rules = [] → ∀ x ∈ allCores sn.core, x.properties = [])
      ∧ ∀ t : Str, style_tree (Node.text t) rules = none := by
  refine ⟨addParents none (.mk (Node.element d cs) (matching_rules d rules)
    (buildCoreList cs rules)), rfl, rfl, rfl, ?_, ?_, ?_, ?_, fun _ => rfl⟩
  · rw [addParents_core]
    exact coreCount_buildCore (Node.element d cs) rules _ rfl
  · rw [addParents_core]
    exact buildCore_allCores_props (Node.element d cs) rules _ rfl
  · exact parentsOk_addParents none _
  · rintro rfl x hx
    rw [addParents_core] at hx
    obtain ⟨d2, cs2, -, hprops, -⟩ :=
      buildCore_allCores_props (Node.element d cs) [] _ rfl x hx
    exact hprops

/-- Witness for C2: on the document `html > (head, body > p)` with no
rules, `style_tree` yields a 4-node tree, correct parent
back-references, and empty properties everywhere. -/
theorem style_tree_spec_witness :
    ∃ sn : StyledNode,
      style_tree (Node.element ⟨"html".toList, []⟩
        [Node.element ⟨"head".toList, []⟩ [],
         Node.element ⟨"body".toList, []⟩
           [Node.element ⟨"p".toList, []⟩ []]]) [] = some sn
      ∧ coreCount sn.core = 4
      ∧ sn.parent = none
      ∧ parentsOk sn = true
      ∧ ∀ x ∈ allCores sn.core, x.properties = [] := by
  obtain ⟨sn, h1, _, h3, h4, _, h6, h7, _⟩ :=
    style_tree_spec [] ⟨"html".toList, []⟩
      [Node.element ⟨"head".toList, []⟩ [],
       Node.element ⟨"body".toList, []⟩ [Node.element ⟨"p".toList, []⟩ []]]
  refine ⟨sn, h1, ?_, h3, h6, h7 rfl⟩
  rw [h4]
  rfl

/-! ## C10: the hit tester -/

theorem childHit_characterization (pnt : Position) (r : LayoutBox) :
    ∀ cs : List LayoutBox,
    childHit cs pnt = some r ↔
      ∃ pre c post, cs = pre ++ c :: post
        ∧ (∀ b ∈ pre, box_at_position b pnt = none)
        ∧ box_at_position c pnt = some r := by
  intro cs
  induction cs with
  | nil =>
    constructor
    · intro h
      cases h
    · rintro ⟨pre, c, post, habs, -, -⟩
      cases pre with
      | nil => cases habs
      | cons _ _ => cases habs
  | cons c0 rest ih =>
    show (match box_at_position c0 pnt with
      | some hit => some hit
      | none => childHit rest pnt) = some r ↔ _
    cases hc : box_at_position c0 pnt with
    | some hit =>
      simp only [Option.some.injEq]
      constructor
      · rintro rfl
        exact ⟨[], c0, rest, rfl, fun b hb => (List.not_mem_nil b hb).elim, hc⟩
      · rintro ⟨pre, c, post, heq, hpre, hcr⟩
        cases pre with
        | nil =>
          simp only [List.nil_append, List.cons.injEq] at heq
          rw [← heq.1] at hcr
          rw [hc] at hcr
          injection hcr
        | cons p0 pre2 =>
          simp only [List.cons_append, List.cons.injEq] at heq
          have := hpre p0 (List.mem_cons_self p0 pre2)
          rw [← heq.1] at this
          rw [hc] at this
          cases this
    | none =>
      rw [ih]
      constructor
      · rintro ⟨pre, c, post, heq, hpre, hcr⟩
        refine ⟨c0 :: pre, c, post, by rw [heq]; rfl, ?_, hcr⟩
        intro b hb
        rcases List.mem_cons.mp hb with rfl | hb
        · exact hc
        · exact hpre b hb
      · rintro ⟨pre, c, post, heq, hpre, hcr⟩
        cases pre with
        | nil =>
          simp only [List.nil_append, List.cons.injEq] at heq
          rw [← heq.1] at hcr
          rw [hc] at hcr
          cases hcr
        | cons p0 pre2 =>
          simp only [List.cons_append, List.cons.injEq] at heq
          exact ⟨pre2, c, post, heq.2, fun b hb =>
            hpre b (List.mem_cons.mpr (Or.inr hb)), hcr⟩

mutual
theorem box_at_position_mem_contains : ∀ (b : LayoutBox) (pnt : Position)
    (r : LayoutBox), box_at_position b pnt = some r →
    r ∈ allBoxes b ∧ r.dimensions.borderBox.contains pnt = true
  | .mk n t d cs, pnt, r => by
    intro h
    show r ∈ LayoutBox.mk n t d cs :: allBoxesList cs ∧ _
    revert h
    show (match childHit cs pnt with
      | some hit => some hit
      | none => if (BoxModel.borderBox d).contains pnt = true
          then some (.mk n t d cs) else none) = some r → _
    cases hch : childHit cs pnt with
    | some hit =>
      intro h
      injection h with h
      obtain ⟨hm, hc⟩ := childHit_mem_contains cs pnt hit hch
      rw [← h]
      exact ⟨List.mem_cons.mpr (Or.inr hm), hc⟩
    | none =>
      intro h
      by_cases hcont : (BoxModel.borderBox d).contains pnt = true
      · rw [if_pos hcont] at h
        injection h with h
        rw [← h]
        exact ⟨List.mem_cons_self _ _, hcont⟩
      · rw [if_neg hcont] at h
        cases h

theorem childHit_mem_contains : ∀ (cs : List LayoutBox) (pnt : Position)
    (r : LayoutBox), childHit cs pnt = some r →
    r ∈ allBoxesList cs ∧ r.dimensions.borderBox.contains pnt = true
  | [], _, _ => by
    intro h
    cases h
  | c :: rest, pnt, r => by
    show (match box_at_position c pnt with
      | some hit => some hit
      | none => childHit rest pnt) = some r → _
    cases hc : box_at_position c pnt with
    | some hit =>
      intro h
      injection h with h
      obtain ⟨hm, hcont⟩ := box_at_position_mem_contains c pnt hit hc
      rw [← h]
      exact ⟨by
        show hit ∈ allBoxes c ++ allBoxesList rest
        exact List.mem_append.mpr (Or.inl hm), hcont⟩
    | none =>
      intro h
      obtain ⟨hm, hcont⟩ := childHit_mem_contains rest pnt r h
      exact ⟨by
        show r ∈ allBoxes c ++ allBoxesList rest
        exact List.mem_append.mpr (Or.inr hm), hcont⟩
end

/-- **C10**: `box_at_position` searches depth-first, children before
self, in document order: a hit is either the hit of the first child (in
document order) whose subtree yields one, or — when no child yields a
hit — the box itself provided its border box (margin edge excluded)
contains the point; every hit lies in the searched tree and its border
box contains the point; and when the point lies outside every box's
border box the result is the explicit no-match value `none`. -/
theorem box_at_position_spec (n : Option StyledNode) (t : LayoutType)
    (d : BoxModel) (cs : List LayoutBox) (pnt : Position) (r : LayoutBox) :
    (box_at_position (.mk n t d cs) pnt = some r ↔
      ((∃ pre c post, cs = pre ++ c :: post
          ∧ (∀ b ∈ pre, box_at_position b pnt = none)
          ∧ box_at_position c pnt = some r)
        ∨ (childHit cs pnt = none ∧ d.borderBox.contains pnt = true
            ∧ r = .mk n t d cs)))
    ∧ (box_at_position (.mk n t d cs) pnt = some r →
        r ∈ allBoxes (.mk n t d cs)
        ∧ r.dimensions.borderBox.contains pnt = true)
    ∧ ((∀ b ∈ allBoxes (.mk n t d cs),
          b.dimensions.borderBox.contains pnt = false) →
        box_at_position (.mk n t d cs) pnt = none) := by
  refine ⟨?_, box_at_position_mem_contains _ pnt r, ?_⟩
  · show (match childHit cs pnt with
      | some hit => some hit
      | none => if (BoxModel.borderBox d).contains pnt = true
          then some (.mk n t d cs) else none) = some r ↔ _
    cases hch : childHit cs pnt with
    | some hit =>
      simp only [Option.some.injEq]
      constructor
      · intro he
        exact Or.inl ((childHit_characterization pnt r cs).mp (he ▸ hch))
      · rintro (hfirst | ⟨habs, -, -⟩)
        · have h2 := (childHit_characterization pnt r cs).mpr hfirst
          rw [hch] at h2
          exact Option.some.inj h2
        · cases habs
    | none =>
      constructor
      · intro h
        by_cases hcont : (BoxModel.borderBox d).contains pnt = true
        · rw [if_pos hcont] at h
          injection h with h
          exact Or.inr ⟨rfl, hcont, h.symm⟩
        · rw [if_neg hcont] at h
          cases h
      · rintro (hfirst | ⟨-, hcont, rfl⟩)
        · have := (childHit_characterization pnt r cs).mpr hfirst
          rw [hch] at this
          cases this
        · rw [if_pos hcont]
  · intro hall
    cases hres : box_at_position (.mk n t d cs) pnt with
    | none => rfl
    | some hit =>
      obtain ⟨hm, hcont⟩ := box_at_position_mem_contains _ pnt hit hres
      rw [hall hit hm] at hcont
      cases hcont

/-- Witness for C10: on a concrete two-leaf box tree, a point inside the
second leaf hits that leaf (children before self, in document order),
and a point outside every border box yields the explicit no-match
result. -/
theorem box_at_position_spec_witness :
    box_at_position
      (LayoutBox.mk none LayoutType.Block
        ⟨⟨0, 0, 100, 100⟩, ⟨0, 0, 0, 0⟩, ⟨0, 0, 0, 0⟩, ⟨0, 0, 0, 0⟩⟩
        [LayoutBox.mk none LayoutType.Block
          ⟨⟨0, 0, 10, 10⟩, ⟨0, 0, 0, 0⟩, ⟨0, 0, 0, 0⟩, ⟨0, 0, 0, 0⟩⟩ [],
         LayoutBox.mk none LayoutType.Block
          ⟨⟨20, 0, 10, 10⟩, ⟨0, 0, 0, 0⟩, ⟨0, 0, 0, 0⟩, ⟨0, 0, 0, 0⟩⟩ []])
      ⟨200, 50⟩ = none
    ∧ box_at_position
      (LayoutBox.mk none LayoutType.Block
        ⟨⟨0, 0, 100, 100⟩, ⟨0, 0, 0, 0⟩, ⟨0, 0, 0, 0⟩, ⟨0, 0, 0, 0⟩⟩
        [LayoutBox.mk none LayoutType.Block
          ⟨⟨0, 0, 10, 10⟩, ⟨0, 0, 0, 0⟩, ⟨0, 0, 0, 0⟩, ⟨0, 0, 0, 0⟩⟩ [],
         LayoutBox.mk none LayoutType.Block
          ⟨⟨20, 0, 10, 10⟩, ⟨0, 0, 0, 0⟩, ⟨0, 0, 0, 0⟩, ⟨0, 0, 0, 0⟩⟩ []])
      ⟨25, 5⟩
      = some (LayoutBox.mk none LayoutType.Block
          ⟨⟨20, 0, 10, 10⟩, ⟨0, 0, 0, 0⟩, ⟨0, 0, 0, 0⟩, ⟨0, 0, 0, 0⟩⟩ []) := by
  refine ⟨?_, rfl⟩
  have h := (box_at_position_spec none LayoutType.Block
    ⟨⟨0, 0, 100, 100⟩, ⟨0, 0, 0, 0⟩, ⟨0, 0, 0, 0⟩, ⟨0, 0, 0, 0⟩⟩
    [LayoutBox.mk none LayoutType.Block
      ⟨⟨0, 0, 10, 10⟩, ⟨0, 0, 0, 0⟩, ⟨0, 0, 0, 0⟩, ⟨0, 0, 0, 0⟩⟩ [],
     LayoutBox.mk none LayoutType.Block
      ⟨⟨20, 0, 10, 10⟩, ⟨0, 0, 0, 0⟩, ⟨0, 0, 0, 0⟩, ⟨0, 0, 0, 0⟩⟩ []]
    ⟨200, 50⟩
    (LayoutBox.mk none LayoutType.Block
      ⟨⟨0, 0, 100, 100⟩, ⟨0, 0, 0, 0⟩, ⟨0, 0, 0, 0⟩, ⟨0, 0, 0, 0⟩⟩ [])).2.2
  exact h (by decide)

end Hastur
